import Mathlib

/-!
Verification development for the mcp-memory repository (TypeScript).

The development shallowly embeds the governance core of the repository:

* `metadata-parser.ts` — extraction and update of the `@ai-metadata` block
  embedded in source files (regex scanning is modelled by explicit
  character-list scanning functions with the same first-match semantics);
* `rule-engine.ts` — the hard-coded permission checks, the default rule
  list and its priority-based blocking/advisory classification;
* `memory-manager.ts` — the approval ledger (`project-memory.json`):
  reading, approval setting and invalidation, modelled as explicit state
  passing over a `SysState` record.

JavaScript strings are modelled as `String`/`List Char`; machine-level
details (Unicode whitespace classes beyond ASCII, `$`-substitution in
`String.replace` replacements, JSON string escape sequences) are noted at
the definitions that abstract them.
-/

namespace MCPMemory

/-! ### Character helpers -/

/-- Single-quote character (written via its code point to keep string
literals free of quote escapes). -/
def squote : Char := Char.ofNat 39

/-- Double-quote character. -/
def dquote : Char := Char.ofNat 34

/-- ASCII fragment of the JavaScript `\s` character class (space, tab,
line feed, carriage return, vertical tab, form feed).  The inputs the
repository processes are ASCII source files, so the non-ASCII members of
`\s` are not modelled. -/
def isJsWS (c : Char) : Bool :=
  c == ' ' || c == '\t' || c == '\n' || c == '\r' || c == Char.ofNat 11 || c == Char.ofNat 12

/-- Negation of the regex class `[\n\r]` used by the per-field capture
`[^\n\r]+` in `metadata-parser.ts`. -/
def notCRLF (c : Char) : Bool := !(c == '\n' || c == '\r')

/-- JavaScript `String.prototype.trim` on the ASCII fragment. -/
def trimJs (l : List Char) : List Char :=
  ((l.dropWhile isJsWS).reverse.dropWhile isJsWS).reverse

/-- The post-processing `match[1].trim().replace(/['"]/g, '')` applied to
every captured scalar-field value in `metadata-parser.ts`. -/
def cleanValue (l : List Char) : List Char :=
  (trimJs l).filter fun c => !(c == squote || c == dquote)

/-! ### First-occurrence pattern search

`splitOnPat pat l` returns `some (pre, post)` when `pat` occurs in `l`,
where `l = pre ++ pat ++ post` and `pre` is shortest (leftmost match) —
the semantics of a JavaScript non-global regex search for a literal
pattern. -/

/-- Case-sensitive "starts with" on character lists. -/
def startsWithCS (p s : List Char) : Bool := s.take p.length == p

/-- Case-insensitive "starts with" (the parser builds all its field
regexes with the `i` flag; only ASCII letters are affected). -/
def ciStartsWith (p s : List Char) : Bool :=
  (s.take p.length).map Char.toLower == p.map Char.toLower

/-- Leftmost occurrence of a literal pattern: `splitOnPat pat l = some
(pre, post)` iff `l = pre ++ pat ++ post` with `pre` minimal. -/
def splitOnPat (pat : List Char) : List Char → Option (List Char × List Char)
  | [] => none
  | c :: cs =>
    if startsWithCS pat (c :: cs) then some ([], (c :: cs).drop pat.length)
    else
      match splitOnPat pat cs with
      | some (pre, post) => some (c :: pre, post)
      | none => none

lemma startsWithCS_length {p s : List Char} (h : startsWithCS p s = true) :
    p.length ≤ s.length := by
  unfold startsWithCS at h
  have he : s.take p.length = p := eq_of_beq h
  have := congrArg List.length he
  simp [List.length_take] at this
  omega

lemma startsWithCS_append {p s : List Char} (b : List Char) (h : startsWithCS p s = true) :
    startsWithCS p (s ++ b) = true := by
  have hl := startsWithCS_length h
  unfold startsWithCS at h ⊢
  rwa [List.take_append_of_le_length hl]

lemma startsWithCS_append_false {p s : List Char} (b : List Char)
    (hl : p.length ≤ s.length) (h : startsWithCS p s = false) :
    startsWithCS p (s ++ b) = false := by
  unfold startsWithCS at h ⊢
  rwa [List.take_append_of_le_length hl]

lemma splitOnPat_cons (pat : List Char) (c : Char) (cs : List Char) :
    splitOnPat pat (c :: cs) =
      if startsWithCS pat (c :: cs) then some ([], (c :: cs).drop pat.length)
      else
        match splitOnPat pat cs with
        | some (pre, post) => some (c :: pre, post)
        | none => none := rfl

lemma splitOnPat_some_le {pat : List Char} :
    ∀ {a : List Char} {x y : List Char}, splitOnPat pat a = some (x, y) →
      pat.length ≤ a.length := by
  intro a
  induction a with
  | nil => intro x y h; simp [splitOnPat] at h
  | cons c cs ih =>
    intro x y h
    rw [splitOnPat_cons] at h
    by_cases hs : startsWithCS pat (c :: cs) = true
    · exact startsWithCS_length hs
    · rw [if_neg hs] at h
      rcases hrec : splitOnPat pat cs with _ | ⟨pre, post⟩
      · rw [hrec] at h; simp at h
      · have := ih hrec
        simp only [List.length_cons]
        omega

lemma splitOnPat_append {pat : List Char} :
    ∀ {a : List Char} (b : List Char) {x y : List Char},
      splitOnPat pat a = some (x, y) →
      splitOnPat pat (a ++ b) = some (x, y ++ b) := by
  intro a
  induction a with
  | nil => intro b x y h; simp [splitOnPat] at h
  | cons c cs ih =>
    intro b x y h
    rw [splitOnPat_cons] at h
    rw [List.cons_append, splitOnPat_cons]
    by_cases hs : startsWithCS pat (c :: cs) = true
    · rw [if_pos hs] at h
      have hl := startsWithCS_length hs
      have hsb : startsWithCS pat (c :: (cs ++ b)) = true := by
        have h2 := startsWithCS_append b hs
        rwa [List.cons_append] at h2
      rw [if_pos hsb]
      have hx : x = [] := by
        have := congrArg (fun o => Option.getD (Option.map Prod.fst o) []) h
        simpa using this.symm
      have hy : y = (c :: cs).drop pat.length := by
        have := congrArg (fun o => Option.getD (Option.map Prod.snd o) []) h
        simpa using this.symm
      subst hx; subst hy
      have hdrop : (c :: (cs ++ b)).drop pat.length =
          (c :: cs).drop pat.length ++ b := by
        rw [← List.cons_append, List.drop_append_of_le_length hl]
      rw [hdrop]
    · rw [if_neg hs] at h
      rcases hrec : splitOnPat pat cs with _ | ⟨pre, post⟩
      · rw [hrec] at h; simp at h
      · rw [hrec] at h
        simp only [Option.some.injEq, Prod.mk.injEq] at h
        have hl : pat.length ≤ (c :: cs).length := by
          have := splitOnPat_some_le hrec
          simp only [List.length_cons]
          omega
        have hs' : startsWithCS pat (c :: cs) = false := by
          simpa using hs
        have hsb : ¬ startsWithCS pat (c :: (cs ++ b)) = true := by
          have h2 := startsWithCS_append_false b hl hs'
          rw [List.cons_append] at h2
          simp [h2]
        rw [if_neg hsb, ih b hrec]
        simp [← h.1, ← h.2]

/-! ### Association lists

The JavaScript objects `memory.approvalStates` and the `updates` record
are modelled as association lists keyed by `String`; updating an existing
key replaces its value in place (preserving JS object key insertion
order), and a new key is appended at the end. -/

/-- Lookup in an association list (first binding wins, as in a JS object
where keys are unique). -/
def lookupA {α : Type} (l : List (String × α)) (k : String) : Option α :=
  (l.find? fun p => p.1 == k).map (·.2)

/-- Key update: replace in place, or append a fresh binding. -/
def setKeyA {α : Type} : List (String × α) → String → α → List (String × α)
  | [], k, v => [(k, v)]
  | (k0, v0) :: t, k, v =>
    if k0 == k then (k, v) :: t else (k0, v0) :: setKeyA t k v

lemma lookupA_cons {α : Type} (k0 : String) (v0 : α) (t : List (String × α)) (k : String) :
    lookupA ((k0, v0) :: t) k = if k0 == k then some v0 else lookupA t k := by
  cases h : (k0 == k) <;> simp [lookupA, List.find?, h]

lemma lookupA_setKeyA_self {α : Type} :
    ∀ (l : List (String × α)) (k : String) (v : α),
      lookupA (setKeyA l k v) k = some v := by
  intro l
  induction l with
  | nil => intro k v; simp [setKeyA, lookupA_cons]
  | cons p t ih =>
    intro k v
    obtain ⟨k0, v0⟩ := p
    cases h : (k0 == k)
    · simp only [setKeyA, h, Bool.false_eq_true, if_false]
      rw [lookupA_cons, if_neg (by simp [h]), ih]
    · simp only [setKeyA, h, if_true]
      rw [lookupA_cons, if_pos (by simp)]

lemma lookupA_setKeyA_other {α : Type} :
    ∀ (l : List (String × α)) (k k' : String) (v : α), k' ≠ k →
      lookupA (setKeyA l k v) k' = lookupA l k' := by
  intro l
  induction l with
  | nil =>
    intro k k' v hne
    show lookupA [(k, v)] k' = lookupA [] k'
    rw [lookupA_cons, if_neg (by simp; exact fun h => hne h.symm)]
  | cons p t ih =>
    intro k k' v hne
    obtain ⟨k0, v0⟩ := p
    cases h : (k0 == k)
    · simp only [setKeyA, h, Bool.false_eq_true, if_false]
      rw [lookupA_cons, lookupA_cons, ih k k' v hne]
    · have hk0 : k0 = k := by simpa using h
      subst hk0
      simp only [setKeyA, h, if_true]
      rw [lookupA_cons, lookupA_cons]
      rw [if_neg (by simp; exact fun hcon => hne hcon.symm),
        if_neg (by simp; exact fun hcon => hne hcon.symm)]

lemma setKeyA_setKeyA {α : Type} :
    ∀ (l : List (String × α)) (k : String) (v w : α),
      setKeyA (setKeyA l k v) k w = setKeyA l k w := by
  intro l
  induction l with
  | nil => intro k v w; simp [setKeyA]
  | cons p t ih =>
    intro k v w
    obtain ⟨k0, v0⟩ := p
    cases h : (k0 == k)
    · simp only [setKeyA, h, Bool.false_eq_true, if_false]
      rw [ih k v w]
    · simp [setKeyA, h]

/-! ### Locating the `@ai-metadata` block

`metadata-parser.ts` locates the block with the regex
`/\*\*[\s\S]*?@ai-metadata[\s\S]*?\*\//` and `String.prototype.match`
(first match).  Because the lazy quantifiers take the first
`@ai-metadata` after the first `/**` and the first `*/` after that, and
because a later `/**` can only succeed when the first one does, the
leftmost match decomposes into three first-occurrence searches. -/

/-- First match of the metadata-block regex, returned as
`(before, matched block, after)`. -/
def findBlockSplit (l : List Char) : Option (List Char × List Char × List Char) :=
  match splitOnPat "/**".data l with
  | none => none
  | some (pre, r1) =>
    match splitOnPat "@ai-metadata".data r1 with
    | none => none
    | some (m1, r2) =>
      match splitOnPat "*/".data r2 with
      | none => none
      | some (m2, post) =>
        some (pre, "/**".data ++ m1 ++ "@ai-metadata".data ++ m2 ++ "*/".data, post)

lemma findBlockSplit_append {a : List Char} (b : List Char)
    {pre blk post : List Char} (h : findBlockSplit a = some (pre, blk, post)) :
    findBlockSplit (a ++ b) = some (pre, blk, post ++ b) := by
  unfold findBlockSplit at h ⊢
  rcases h1 : splitOnPat "/**".data a with _ | ⟨p1, r1⟩ <;> rw [h1] at h
  · simp at h
  · simp only [] at h
    rcases h2 : splitOnPat "@ai-metadata".data r1 with _ | ⟨m1, r2⟩ <;> rw [h2] at h
    · simp at h
    · simp only [] at h
      rcases h3 : splitOnPat "*/".data r2 with _ | ⟨m2, r3⟩ <;> rw [h3] at h
      · simp at h
      · simp only [] at h
        rw [splitOnPat_append b h1]
        simp only []
        rw [splitOnPat_append b h2]
        simp only []
        rw [splitOnPat_append b h3]
        simp only [Option.some.injEq, Prod.mk.injEq] at h ⊢
        exact ⟨h.1, h.2.1, by rw [h.2.2]⟩

/-! ### Scalar-field capture

`parseField` in `metadata-parser.ts` matches
`new RegExp(escaped(field) + "\\s*([^\\n\\r]+)", "i")` and feeds
`match[1].trim().replace(/['"]/g, '')` to the setter.  The greedy `\s*`
with backtracking means: after the field token, skip all whitespace; if a
character follows, capture the rest of that line; if only whitespace runs
to the end of the string, the match succeeds (capturing whitespace that
trims to the empty string) exactly when some non-newline whitespace
remains, and otherwise the scan continues at the next occurrence. -/

/-- Index of the last character of `l` that is not CR/LF, if any. -/
def lastNonCRLFIdx (l : List Char) : Option Nat :=
  (l.reverse.findIdx? notCRLF).map fun i => l.length - 1 - i

/-- Attempt the field match at a position where the token already
matches case-insensitively; returns `(span, capture, rest)`. -/
def fieldHere (tokLen : Nat) (s : List Char) : Option (List Char × List Char × List Char) :=
  let tokSpan := s.take tokLen
  let rest := s.drop tokLen
  let ws := rest.takeWhile isJsWS
  let afterWS := rest.drop ws.length
  match afterWS with
  | [] =>
    match lastNonCRLFIdx ws with
    | some i =>
      let cap := (ws.drop i).takeWhile notCRLF
      some (tokSpan ++ ws.take i ++ cap, cap, (ws.drop i).drop cap.length)
    | none => none
  | _ :: _ =>
    let cap := afterWS.takeWhile notCRLF
    some (tokSpan ++ ws ++ cap, cap, afterWS.drop cap.length)

/-- Leftmost successful field match: `(before, span, capture, after)`
with `content = before ++ span ++ after` and `span` ending in `capture`. -/
def fieldSplit (tok : List Char) : List Char → Option (List Char × List Char × List Char × List Char)
  | [] => none
  | c :: cs =>
    if ciStartsWith tok (c :: cs) then
      match fieldHere tok.length (c :: cs) with
      | some (span, cap, post) => some ([], span, cap, post)
      | none =>
        match fieldSplit tok cs with
        | some (pre, span, cap, post) => some (c :: pre, span, cap, post)
        | none => none
    else
      match fieldSplit tok cs with
      | some (pre, span, cap, post) => some (c :: pre, span, cap, post)
      | none => none

/-- `parseField` of `metadata-parser.ts`: cleaned capture of the leftmost
field match. -/
def parseField (tok : String) (content : List Char) : Option String :=
  (fieldSplit tok.data content).map fun r => String.mk (cleanValue r.2.2.1)

/-- Generic scan used for the array and JSON field regexes: try `f` at
every case-insensitive occurrence of the token, left to right. -/
def scanFor {β : Type} (tok : List Char) (f : List Char → Option β) : List Char → Option β
  | [] => none
  | c :: cs =>
    if ciStartsWith tok (c :: cs) then
      match f (c :: cs) with
      | some r => some r
      | none => scanFor tok f cs
    else scanFor tok f cs

/-- Body of the array-field regex `\s*\[([^\]]+)\]` at one occurrence:
whitespace, `[`, a non-empty bracket-free run, `]`. -/
def arrayFieldHere (tokLen : Nat) (s : List Char) : Option (List Char) :=
  let afterWS := (s.drop tokLen).dropWhile isJsWS
  match afterWS with
  | c :: t =>
    if c == '[' then
      let inner := t.takeWhile fun d => !(d == ']')
      if inner.length < t.length && !inner.isEmpty then some inner else none
    else none
  | [] => none

/-- `parseArrayField` of `metadata-parser.ts`: items of the bracketed
list, split on commas, each trimmed and unquoted. -/
def parseArrayField (tok : String) (content : List Char) : Option (List String) :=
  (scanFor tok.data (arrayFieldHere tok.data.length) content).map fun inner =>
    (inner.splitOn ',').map fun item => String.mk (cleanValue item)

/-- Body of the JSON-field regex `\s*({[^}]+})` at one occurrence: the
captured brace span, braces included. -/
def jsonCaptureHere (tokLen : Nat) (s : List Char) : Option (List Char) :=
  let afterWS := (s.drop tokLen).dropWhile isJsWS
  match afterWS with
  | c :: t =>
    if c == '{' then
      let inner := t.takeWhile fun d => !(d == '}')
      if inner.length < t.length && !inner.isEmpty then some (c :: (inner ++ ['}'])) else none
    else none
  | [] => none

/-- Leftmost capture of the JSON-field regex. -/
def jsonCapture (tok : String) (content : List Char) : Option (List Char) :=
  scanFor tok.data (jsonCaptureHere tok.data.length) content

/-- The quote substitution `jsonStr = match[1].replace(/'/g, '"')`. -/
def swapQuotes (l : List Char) : List Char :=
  l.map fun c => if c == squote then dquote else c

/-! ### JSON values

`parseJsonField` feeds the captured brace span to `JSON.parse` inside a
`try`/`catch`.  `JSON.parse` is modelled by a recursive-descent parser for
the JSON grammar (string escape sequences are not interpreted, which is
irrelevant for the brace-delimited single-line captures the field regex
can produce). -/

/-- Parsed JSON value (the TypeScript side types the result as
`Record<string, ...>` but performs no runtime validation, so any JSON
value can be stored). -/
inductive JVal where
  | jstr : String → JVal
  | jnum : String → JVal
  | jbool : Bool → JVal
  | jnull : JVal
  | jarr : List JVal → JVal
  | jobj : List (String × JVal) → JVal

/-- JSON insignificant whitespace. -/
def isJsonWS (c : Char) : Bool := c == ' ' || c == '\t' || c == '\n' || c == '\r'

/-- Skip JSON whitespace. -/
def skipWS (l : List Char) : List Char := l.dropWhile isJsonWS

/-- Parse a JSON string literal (escapes uninterpreted). -/
def parseJString : List Char → Option (String × List Char)
  | c :: t =>
    if c == dquote then
      let body := t.takeWhile fun d => !(d == dquote)
      if body.length < t.length then some (String.mk body, t.drop (body.length + 1)) else none
    else none
  | [] => none

/-- Exponent part of a JSON number (or pass-through). -/
def parseExpPart (acc : List Char) (l : List Char) : Option (String × List Char) :=
  match l with
  | c :: t =>
    if c == 'e' || c == 'E' then
      let p : List Char × List Char :=
        match t with
        | d :: u => if d == '+' || d == '-' then ([d], u) else ([], t)
        | [] => ([], t)
      let ds := p.2.takeWhile Char.isDigit
      if ds.isEmpty then none
      else some (String.mk (acc ++ c :: (p.1 ++ ds)), p.2.drop ds.length)
    else some (String.mk acc, l)
  | [] => some (String.mk acc, l)

/-- Fraction part of a JSON number (or pass-through to the exponent). -/
def parseFracPart (acc : List Char) (l : List Char) : Option (String × List Char) :=
  match l with
  | c :: t =>
    if c == '.' then
      let ds := t.takeWhile Char.isDigit
      if ds.isEmpty then none else parseExpPart (acc ++ c :: ds) (t.drop ds.length)
    else parseExpPart acc l
  | [] => some (String.mk acc, [])

/-- JSON number: `-?(0|[1-9][0-9]*)(\.[0-9]+)?([eE][+-]?[0-9]+)?`. -/
def parseJNumber (l : List Char) : Option (String × List Char) :=
  let p : List Char × List Char :=
    match l with
    | c :: t => if c == '-' then (['-'], t) else ([], l)
    | [] => ([], l)
  match p.2 with
  | c :: t =>
    if c == '0' then parseFracPart (p.1 ++ ['0']) t
    else if c.isDigit then
      let ds := t.takeWhile Char.isDigit
      parseFracPart (p.1 ++ c :: ds) (t.drop ds.length)
    else none
  | [] => none

mutual

/-- Parse one JSON value (fuel-indexed recursion). -/
def parseJVal : Nat → List Char → Option (JVal × List Char)
  | 0, _ => none
  | Nat.succ fuel, l =>
    let l1 := skipWS l
    match l1 with
    | [] => none
    | c :: t =>
      if c == dquote then (parseJString l1).map fun r => (JVal.jstr r.1, r.2)
      else if c == '[' then
        let t1 := skipWS t
        match t1 with
        | d :: u =>
          if d == ']' then some (JVal.jarr [], u)
          else (parseJArrItems fuel t1).map fun r => (JVal.jarr r.1, r.2)
        | [] => none
      else if c == '{' then
        let t1 := skipWS t
        match t1 with
        | d :: u =>
          if d == '}' then some (JVal.jobj [], u)
          else (parseJObjItems fuel t1).map fun r => (JVal.jobj r.1, r.2)
        | [] => none
      else if startsWithCS "true".data l1 then some (JVal.jbool true, l1.drop 4)
      else if startsWithCS "false".data l1 then some (JVal.jbool false, l1.drop 5)
      else if startsWithCS "null".data l1 then some (JVal.jnull, l1.drop 4)
      else (parseJNumber l1).map fun r => (JVal.jnum r.1, r.2)

/-- Parse the non-empty item list of a JSON array, consuming the
closing bracket. -/
def parseJArrItems : Nat → List Char → Option (List JVal × List Char)
  | 0, _ => none
  | Nat.succ fuel, l =>
    match parseJVal fuel l with
    | none => none
    | some (v, r) =>
      match skipWS r with
      | c :: t =>
        if c == ',' then (parseJArrItems fuel t).map fun q => (v :: q.1, q.2)
        else if c == ']' then some ([v], t)
        else none
      | [] => none

/-- Parse the non-empty member list of a JSON object, consuming the
closing brace. -/
def parseJObjItems : Nat → List Char → Option (List (String × JVal) × List Char)
  | 0, _ => none
  | Nat.succ fuel, l =>
    match parseJString (skipWS l) with
    | none => none
    | some (k, r) =>
      match skipWS r with
      | c :: t =>
        if c == ':' then
          match parseJVal fuel t with
          | none => none
          | some (v, r2) =>
            match skipWS r2 with
            | d :: u =>
              if d == ',' then (parseJObjItems fuel u).map fun q => ((k, v) :: q.1, q.2)
              else if d == '}' then some ([(k, v)], u)
              else none
            | [] => none
        else none
      | [] => none

end

/-- `JSON.parse`: a full-input parse of one JSON value. -/
def jsonDecode (l : List Char) : Option JVal :=
  match parseJVal (l.length + 2) l with
  | some (v, r) => if (skipWS r).isEmpty then some v else none
  | none => none

/-! ### Data model (`types.ts`) -/

/-- `ApprovalStatus` of `types.ts`: all nine fields are optional. -/
structure ApprovalStatus where
  devApproved : Option Bool := none
  devApprovedBy : Option String := none
  devApprovedDate : Option String := none
  codeReviewApproved : Option Bool := none
  codeReviewApprovedBy : Option String := none
  codeReviewDate : Option String := none
  qaApproved : Option Bool := none
  qaApprovedBy : Option String := none
  qaApprovedDate : Option String := none
deriving DecidableEq

/-- `AIMetadata` of `types.ts`.  The `class` field is named `className`
here because `class` is a Lean keyword.  The string-enum fields
(`stability`, `editPermissions`, `breakingChangesRisk`) are plain strings,
as the parser casts arbitrary captured text into them at runtime. -/
structure AIMetadata where
  className : Option String := none
  description : Option String := none
  lastUpdate : Option String := none
  lastEditor : Option String := none
  changelog : Option String := none
  stability : Option String := none
  editPermissions : Option String := none
  methodPermissions : Option JVal := none
  dependencies : Option (List String) := none
  tests : Option (List String) := none
  breakingChangesRisk : Option String := none
  reviewRequired : Option Bool := none
  aiContext : Option String := none
  approvals : Option ApprovalStatus := none

/-! ### Metadata extraction (`MetadataParser.extractMetadataFromContent`) -/

/-- `parseApprovals`: approval sub-fields are collected by the scalar
mechanism; the sub-record is attached only if at least one approval key
was found. -/
def parseApprovals (b : List Char) : Option ApprovalStatus :=
  let dA := parseField "@dev-approved:" b
  let dBy := parseField "@dev-approved-by:" b
  let dDate := parseField "@dev-approved-date:" b
  let cA := parseField "@code-review-approved:" b
  let cBy := parseField "@code-review-approved-by:" b
  let cDate := parseField "@code-review-date:" b
  let qA := parseField "@qa-approved:" b
  let qBy := parseField "@qa-approved-by:" b
  let qDate := parseField "@qa-approved-date:" b
  if dA.isSome || dBy.isSome || dDate.isSome || cA.isSome || cBy.isSome || cDate.isSome ||
      qA.isSome || qBy.isSome || qDate.isSome then
    some { devApproved := dA.map (· == "true"), devApprovedBy := dBy, devApprovedDate := dDate,
           codeReviewApproved := cA.map (· == "true"), codeReviewApprovedBy := cBy,
           codeReviewDate := cDate,
           qaApproved := qA.map (· == "true"), qaApprovedBy := qBy, qaApprovedDate := qDate }
  else none

/-- Console warning emitted when the `@method-permissions:` capture fails
`JSON.parse`. -/
def jsonWarnMsg : String := "Warning: Could not parse JSON for @method-permissions:"

/-- All fields of the metadata record except `methodPermissions`, each
parsed independently from the block by its own pattern. -/
def extractFields (b : List Char) : AIMetadata :=
  { className := parseField "@class:" b
    description := parseField "@description:" b
    lastUpdate := parseField "@last-update:" b
    lastEditor := parseField "@last-editor:" b
    changelog := parseField "@changelog:" b
    stability := parseField "@stability:" b
    editPermissions := parseField "@edit-permissions:" b
    breakingChangesRisk := parseField "@breaking-changes-risk:" b
    reviewRequired := (parseField "@review-required:" b).map (· == "true")
    aiContext := parseField "@ai-context:" b
    dependencies := parseArrayField "@dependencies:" b
    tests := parseArrayField "@tests:" b
    methodPermissions := none
    approvals := parseApprovals b }

/-- `extractMetadataFromContent`: locate the block, parse every field,
and additionally return the warning log of the JSON sub-parse (the
`console.warn` of `parseJsonField`).  A failed `JSON.parse` is caught
locally: the field stays absent and extraction continues. -/
def extractMetadataFromContent (content : String) : Option AIMetadata × List String :=
  match findBlockSplit content.data with
  | none => (none, [])
  | some (_, b, _) =>
    match jsonCapture "@method-permissions:" b with
    | none => (some (extractFields b), [])
    | some cap =>
      match jsonDecode (swapQuotes cap) with
      | some v => (some { extractFields b with methodPermissions := some v }, [])
      | none => (some (extractFields b), [jsonWarnMsg])

/-! ### Metadata update (`MetadataParser.updateMetadataInContent`)

The `updates` object (`Partial<AIMetadata>` in the source) is modelled as
an association list of stringified values in object-entry order, since
the update loop iterates `Object.entries(updates)` and interpolates each
value with `${value}`. -/

/-- One line of `generateMetadataBlock`, guarded by JS truthiness of the
field value (absent or empty string means the line is skipped). -/
def optLine (tok : String) (v : Option String) : String :=
  match v with
  | some s => if s == "" then "" else " * " ++ tok ++ " " ++ s ++ "\n"
  | none => ""

/-- `generateMetadataBlock`: the block synthesized when a file has no
metadata; `@last-update` always appears, defaulting to the current time
`now`, and `@review-required` appears whenever the key is present. -/
def generateMetadataBlock (now : String) (updates : List (String × String)) : String :=
  "/**\n * @ai-metadata\n"
  ++ optLine "@class:" (lookupA updates "class")
  ++ optLine "@description:" (lookupA updates "description")
  ++ " * @last-update: "
  ++ (match lookupA updates "lastUpdate" with
      | some v => if v == "" then now else v
      | none => now)
  ++ "\n"
  ++ optLine "@last-editor:" (lookupA updates "lastEditor")
  ++ optLine "@stability:" (lookupA updates "stability")
  ++ optLine "@edit-permissions:" (lookupA updates "editPermissions")
  ++ optLine "@breaking-changes-risk:" (lookupA updates "breakingChangesRisk")
  ++ (match lookupA updates "reviewRequired" with
      | some v => " * @review-required: " ++ v ++ "\n"
      | none => "")
  ++ optLine "@ai-context:" (lookupA updates "aiContext")
  ++ " */"

/-- The `fieldMap` of `updateMetadataField`: only these five update keys
have a corresponding block field; all other keys are ignored. -/
def fieldMapLookup (k : String) : Option String :=
  if k == "lastUpdate" then some "@last-update:"
  else if k == "lastEditor" then some "@last-editor:"
  else if k == "editPermissions" then some "@edit-permissions:"
  else if k == "breakingChangesRisk" then some "@breaking-changes-risk:"
  else if k == "reviewRequired" then some "@review-required:"
  else none

/-- Trailing-whitespace strip used to model the first match of the
insertion regex `/\s*\*\//` (the whitespace run immediately before the
first closing delimiter). -/
def dropTrailingWS (l : List Char) : List Char := (l.reverse.dropWhile isJsWS).reverse

/-- `updateMetadataField`: replace the matched field line in place, or
insert a fresh field line before the closing `*/`. -/
def updateMetadataField (block : List Char) (key value : String) : List Char :=
  match fieldMapLookup key with
  | none => block
  | some tok =>
    match fieldSplit tok.data block with
    | some (pre, _span, _cap, post) => pre ++ tok.data ++ ' ' :: value.data ++ post
    | none =>
      match splitOnPat "*/".data block with
      | some (pre, post) =>
        dropTrailingWS pre ++ "\n * ".data ++ tok.data ++ ' ' :: value.data ++ "\n */".data ++ post
      | none => block

/-- `updateMetadataInContent`: prepend a synthesized block when none
exists; otherwise stamp `lastUpdate := now` into the updates and rewrite
each updated field inside the matched block (`String.replace` with a
non-global regex replaces exactly the first-match span; `$`-patterns in
the replacement are not modelled). -/
def updateMetadataInContent (now : String) (content : String) (updates : List (String × String)) : String :=
  match findBlockSplit content.data with
  | none => generateMetadataBlock now updates ++ "\n" ++ content
  | some (pre, block, post) =>
    let ups := setKeyA updates "lastUpdate" now
    let newBlock := ups.foldl (fun b kv => updateMetadataField b kv.1 kv.2) block
    String.mk (pre ++ newBlock ++ post)

/-! ### Rule engine (`rule-engine.ts`)

The five default rule conditions are JavaScript expression strings
evaluated over the fixed predicate vocabulary (`hasApproval`,
`isHighRisk`, `isReadOnly`, `isDeprecated`, the metadata record).  They
are embedded as a closed condition language `RuleCond` whose
interpretation returns the JS truthiness of the expression; a condition
whose evaluation throws is represented by `condUnevaluable`, which the
engine treats as passed (`return true` in the `catch` branch of
`evaluateCondition`). -/

/-- Truthiness of `approvals?.devApproved` and of
`hasApproval("dev")` (both test the boolean against `true`). -/
def devApprovedB (a : Option ApprovalStatus) : Bool :=
  match a with
  | some st => st.devApproved == some true
  | none => false

/-- Truthiness of `approvals?.codeReviewApproved` /
`hasApproval("codeReview")`. -/
def codeReviewApprovedB (a : Option ApprovalStatus) : Bool :=
  match a with
  | some st => st.codeReviewApproved == some true
  | none => false

/-- The condition strings of the default rules. -/
inductive RuleCond where
  /-- `isReadOnly()` -/
  | condReadOnly : RuleCond
  /-- `isHighRisk() && !hasApproval("dev")` -/
  | condHighRiskNoDev : RuleCond
  /-- `isDeprecated()` -/
  | condDeprecated : RuleCond
  /-- `metadata.reviewRequired && !hasApproval("codeReview")` -/
  | condReviewNoCodeReview : RuleCond
  /-- `metadata.stability === "stable" && !hasApproval("dev")` -/
  | condStableNoDev : RuleCond
  /-- any condition whose evaluation throws (treated as passed) -/
  | condUnevaluable : RuleCond
deriving DecidableEq

/-- JS truthiness of a rule condition (`evaluateCondition`); the result
feeds `passed` in `evaluateRule`. -/
def evalCond (c : RuleCond) (m : AIMetadata) (a : Option ApprovalStatus) : Bool :=
  match c with
  | RuleCond.condReadOnly => m.editPermissions == some "read-only"
  | RuleCond.condHighRiskNoDev => (m.breakingChangesRisk == some "high") && !devApprovedB a
  | RuleCond.condDeprecated => m.stability == some "deprecated"
  | RuleCond.condReviewNoCodeReview => (m.reviewRequired == some true) && !codeReviewApprovedB a
  | RuleCond.condStableNoDev => (m.stability == some "stable") && !devApprovedB a
  | RuleCond.condUnevaluable => true

/-- `AIRule` of `types.ts` (condition deep-embedded, see `RuleCond`). -/
structure AIRule where
  id : String
  name : String
  condition : RuleCond
  action : String
  priority : Int
  enabled : Bool
deriving DecidableEq

/-- `RuleEngine.getDefaultRules`, in source order. -/
def getDefaultRules : List AIRule :=
  [ { id := "no-modify-read-only", name := "Prevent Read-Only Modifications",
      condition := RuleCond.condReadOnly,
      action := "File is marked as read-only and cannot be modified",
      priority := 10, enabled := true },
    { id := "high-risk-needs-approval", name := "High Risk Needs Approval",
      condition := RuleCond.condHighRiskNoDev,
      action := "High-risk file requires developer approval",
      priority := 9, enabled := true },
    { id := "deprecated-warning", name := "Deprecated File Warning",
      condition := RuleCond.condDeprecated,
      action := "Consider if modifying deprecated file is necessary",
      priority := 5, enabled := true },
    { id := "review-required", name := "Review Required",
      condition := RuleCond.condReviewNoCodeReview,
      action := "File requires code review before modification",
      priority := 8, enabled := true },
    { id := "stable-code-protection", name := "Stable Code Protection",
      condition := RuleCond.condStableNoDev,
      action := "Stable code should be reviewed before modification",
      priority := 6, enabled := true } ]

/-- The decision record returned by `checkBeforeModification`. -/
structure Decision where
  allowed : Bool
  reasons : List String
  warnings : List String
deriving DecidableEq

/-- The four hard-coded checks of `checkBeforeModification` (lines 27-48
of `rule-engine.ts`), applied in source order to the initial
all-permissive result. -/
def checkHard (m : AIMetadata) (a : Option ApprovalStatus) : Decision :=
  let d0 : Decision := ⟨true, [], []⟩
  let d1 :=
    if m.editPermissions == some "read-only" then
      ⟨false, d0.reasons ++ ["File is marked as read-only"], d0.warnings⟩
    else d0
  let d2 :=
    if (m.breakingChangesRisk == some "high") && !devApprovedB a then
      ⟨false, d1.reasons ++ ["High-risk file requires dev approval before modification"],
        d1.warnings⟩
    else d1
  let d3 :=
    if (m.reviewRequired == some true) && !codeReviewApprovedB a then
      ⟨false, d2.reasons ++ ["File requires code review approval before modification"],
        d2.warnings⟩
    else d2
  let d4 :=
    if m.stability == some "deprecated" then
      ⟨d3.allowed, d3.reasons,
        d3.warnings ++ ["This file is deprecated - consider if modification is necessary"]⟩
    else d3
  d4

/-- One iteration of the custom-rule loop: when the evaluated condition
is falsy the rule "fails" (`!ruleResult.passed`) and its `action` text is
classified by priority — strictly above 8 blocks, otherwise it warns. -/
def ruleStep (m : AIMetadata) (a : Option ApprovalStatus) (d : Decision) (r : AIRule) : Decision :=
  if !evalCond r.condition m a then
    if r.priority > 8 then ⟨false, d.reasons ++ [r.action], d.warnings⟩
    else ⟨d.allowed, d.reasons, d.warnings ++ [r.action]⟩
  else d

/-- `RuleEngine.checkBeforeModification` (the `filePath` argument is
threaded to the evaluation context but unused by the embedded
conditions). -/
def checkBeforeModification (rules : List AIRule) (filePath : String)
    (metadata : Option AIMetadata) (approvals : Option ApprovalStatus) : Decision :=
  match metadata with
  | none => ⟨true, [], ["No @ai-metadata found in file"]⟩
  | some m => (rules.filter (·.enabled)).foldl (ruleStep m approvals) (checkHard m approvals)

/-- `RuleEngine.getActionsAfterModification`. -/
def getActionsAfterModification (filePath : String) (metadata : Option AIMetadata) : List String :=
  let base := ["invalidate_approvals", "update_last_modified", "add_to_changelog"]
  let a1 :=
    base ++
      (if (metadata.map (·.breakingChangesRisk)).getD none == some "high" then
        ["require_immediate_review"]
      else [])
  a1 ++
    (match metadata with
     | some m =>
       match m.tests with
       | some l => if l.isEmpty then [] else ["run_tests"]
       | none => []
     | none => [])

/-! ### Memory manager (`memory-manager.ts`)

The persisted world is a `SysState`: the project-memory ledger file
(which may be missing or unparseable), the source files the gate reads,
and the in-memory rule list.  Only the `approvalStates` section of the
project-memory document is modelled; paths are keyed by the
project-relative path that `path.relative` produces in the source. -/

/-- The `approvalStates` section of `project-memory.json`. -/
structure ProjectMemory where
  approvalStates : List (String × ApprovalStatus)
deriving DecidableEq

/-- `createDefaultProjectMemory` (its `approvalStates` starts empty). -/
def defaultProjectMemory : ProjectMemory := ⟨[]⟩

/-- World state: `ledger = none` means the ledger file is missing,
`ledger = some none` means it exists but `fs.readJson` throws on it
(invalid JSON), `ledger = some (some m)` is a valid document. -/
structure SysState where
  ledger : Option (Option ProjectMemory)
  files : List (String × String)
  rules : List AIRule
deriving DecidableEq

/-- `MemoryManager.getProjectMemory`: a missing file falls through to the
default; a `readJson` exception is caught, logged, and also yields the
default.  The call performs no writes. -/
def getProjectMemory (s : SysState) : ProjectMemory :=
  match s.ledger with
  | some (some m) => m
  | _ => defaultProjectMemory

/-- `MemoryManager.saveProjectMemory`: full rewrite of the ledger
document. -/
def saveProjectMemory (s : SysState) (m : ProjectMemory) : SysState :=
  { s with ledger := some (some m) }

/-- The three approval slots handled by the `switch` of
`setFileApproval`. -/
inductive ApprovalSlot where
  | dev : ApprovalSlot
  | codeReview : ApprovalSlot
  | qa : ApprovalSlot
deriving DecidableEq

/-- The per-slot entry update performed by the `switch` in
`setFileApproval`: approved flag, approver and current timestamp of that
slot only. -/
def applySlot (e : ApprovalStatus) (slot : ApprovalSlot) (approvedBy now : String) : ApprovalStatus :=
  match slot with
  | ApprovalSlot.dev =>
    { e with devApproved := some true, devApprovedBy := some approvedBy,
             devApprovedDate := some now }
  | ApprovalSlot.codeReview =>
    { e with codeReviewApproved := some true, codeReviewApprovedBy := some approvedBy,
             codeReviewDate := some now }
  | ApprovalSlot.qa =>
    { e with qaApproved := some true, qaApprovedBy := some approvedBy,
             qaApprovedDate := some now }

/-- The all-optional empty entry created by
`memory.approvalStates[relativePath] = {}`. -/
def emptyApproval : ApprovalStatus := {}

/-- `MemoryManager.setFileApproval` (the nondeterministic
`new Date().toISOString()` is passed in as `now`). -/
def setFileApproval (s : SysState) (path : String) (slot : ApprovalSlot)
    (approvedBy now : String) : SysState :=
  saveProjectMemory s
    ⟨setKeyA (getProjectMemory s).approvalStates path
      (applySlot ((lookupA (getProjectMemory s).approvalStates path).getD emptyApproval)
        slot approvedBy now)⟩

/-- `MemoryManager.getFileApprovalStatus`: pure ledger lookup
(`memory.approvalStates[relativePath] || null`). -/
def getFileApprovalStatus (s : SysState) (path : String) : Option ApprovalStatus :=
  lookupA (getProjectMemory s).approvalStates path

/-- The record `invalidateFileApprovals` stores: only the three approved
flags, all false (approver/date fields are dropped). -/
def invalidatedStatus : ApprovalStatus :=
  { devApproved := some false, codeReviewApproved := some false, qaApproved := some false }

/-- `MemoryManager.invalidateFileApprovals`: resets the entry when one
exists and saves; a path with no entry is left alone (no save, no
error).  The `reason` argument is only logged. -/
def invalidateFileApprovals (s : SysState) (path : String) (reason : String) : SysState :=
  match lookupA (getProjectMemory s).approvalStates path with
  | some _ =>
    saveProjectMemory s ⟨setKeyA (getProjectMemory s).approvalStates path invalidatedStatus⟩
  | none => s

/-! ### Gate orchestration (`index.ts`, tool handlers)

`check_before_modification` parses the file (read failures degrade to
`null` metadata inside `parseFileMetadata`), fetches the approval
status, and calls the rule engine; none of the three query handlers
writes to the ledger, the files, or the rule list, which the state-passing
embedding records by returning the state. -/

/-- `MetadataParser.parseFileMetadata`: a missing/unreadable file is
caught and returns `null`; otherwise the content is parsed. -/
def parseFileMetadata (s : SysState) (path : String) : Option AIMetadata :=
  match lookupA s.files path with
  | none => none
  | some content => (extractMetadataFromContent content).1

/-- The `check_before_modification` handler. -/
def gateCheckBeforeModification (s : SysState) (path : String) : Decision × SysState :=
  (checkBeforeModification s.rules path (parseFileMetadata s path) (getFileApprovalStatus s path), s)

/-- The `get_modification_actions` handler. -/
def gateGetActionsAfterModification (s : SysState) (path : String) : List String × SysState :=
  (getActionsAfterModification path (parseFileMetadata s path), s)

/-- The `get_approval_status` handler
(`MemoryManager.getFileApprovalStatus` with the state threaded). -/
def memGetFileApprovalStatus (s : SysState) (path : String) : Option ApprovalStatus × SysState :=
  (getFileApprovalStatus s path, s)

/-! ### Rule-loop characterization -/

/-- A rule "fails"/triggers when its evaluated condition is falsy
(`!ruleResult.passed` in the loop). -/
def ruleTriggered (m : AIMetadata) (a : Option ApprovalStatus) (r : AIRule) : Bool :=
  !evalCond r.condition m a

/-- A triggered rule with priority strictly above 8 blocks. -/
def ruleBlocks (m : AIMetadata) (a : Option ApprovalStatus) (r : AIRule) : Bool :=
  ruleTriggered m a r && decide (r.priority > 8)

/-- A triggered rule with priority at most 8 only warns. -/
def ruleWarns (m : AIMetadata) (a : Option ApprovalStatus) (r : AIRule) : Bool :=
  ruleTriggered m a r && decide (r.priority ≤ 8)

lemma foldl_ruleStep (m : AIMetadata) (a : Option ApprovalStatus) :
    ∀ (rs : List AIRule) (d : Decision),
      rs.foldl (ruleStep m a) d =
        ⟨d.allowed && (rs.filter (ruleBlocks m a)).isEmpty,
         d.reasons ++ (rs.filter (ruleBlocks m a)).map (·.action),
         d.warnings ++ (rs.filter (ruleWarns m a)).map (·.action)⟩ := by
  intro rs
  induction rs with
  | nil => intro d; simp
  | cons r rs ih =>
    intro d
    rw [List.foldl_cons, ih (ruleStep m a d r)]
    cases hc : evalCond r.condition m a
    · by_cases hp : (8 : Int) < r.priority
      · have hb : ruleBlocks m a r = true := by
          simp [ruleBlocks, ruleTriggered, hc, hp]
        have hw : ruleWarns m a r = false := by
          simp [ruleWarns, ruleTriggered, hc]
          omega
        simp [ruleStep, hc, hp, List.filter_cons, hb, hw, List.append_assoc]
      · have hb : ruleBlocks m a r = false := by
          simp [ruleBlocks, ruleTriggered, hc]
          omega
        have hw : ruleWarns m a r = true := by
          simp [ruleWarns, ruleTriggered, hc]
          omega
        simp [ruleStep, hc, hp, List.filter_cons, hb, hw, List.append_assoc]
    · have hb : ruleBlocks m a r = false := by
        simp [ruleBlocks, ruleTriggered, hc]
      have hw : ruleWarns m a r = false := by
        simp [ruleWarns, ruleTriggered, hc]
      simp [ruleStep, hc, List.filter_cons, hb, hw]

lemma listIsEmpty_append {α : Type} (l₁ l₂ : List α) :
    (l₁ ++ l₂).isEmpty = (l₁.isEmpty && l₂.isEmpty) := by
  cases l₁ <;> simp

lemma listIsEmpty_map {α β : Type} (f : α → β) (l : List α) :
    (l.map f).isEmpty = l.isEmpty := by
  cases l <;> simp

lemma checkHard_allowed (m : AIMetadata) (a : Option ApprovalStatus) :
    (checkHard m a).allowed = (checkHard m a).reasons.isEmpty := by
  unfold checkHard
  by_cases h1 : (m.editPermissions == some "read-only") = true <;>
    by_cases h2 : ((m.breakingChangesRisk == some "high") && !devApprovedB a) = true <;>
      by_cases h3 : ((m.reviewRequired == some true) && !codeReviewApprovedB a) = true <;>
        by_cases h4 : (m.stability == some "deprecated") = true <;>
          simp [h1, h2, h3, h4]

/-! ### Claim theorems -/

/-- Metadata of the C1 scenario: full edit permissions, high breaking
risk, nothing else set. -/
def c1meta : AIMetadata := { editPermissions := some "full", breakingChangesRisk := some "high" }

/-- Timestamp used for the C1 approval. -/
def c1now : String := "2024-12-20T10:00:00.000Z"

/-- C1 initial world: a valid, empty ledger. -/
def c1s0 : SysState := ⟨some (some ⟨[]⟩), [], getDefaultRules⟩

/-- C1 world after `setApproval("src/core.ts", dev, "bob@example.com")`. -/
def c1s1 : SysState := setFileApproval c1s0 "src/core.ts" ApprovalSlot.dev "bob@example.com" c1now

/-- World used for the C2 counterexample: empty ledger, no files. -/
def c2state : SysState := ⟨some (some ⟨[]⟩), [], getDefaultRules⟩

/-- Claim C1 (code bug, concrete evaluation): with
`breakingChangesRisk = high`, `editPermissions = full` and no recorded
approvals, the check blocks with a dev-approval reason — and after
`setApproval(path, dev, ...)` the re-check still returns `allowed =
false`: the custom-rule loop classifies a rule as failed when its
condition is falsy, so the read-only rule (condition `isReadOnly()`,
priority 10) and the high-risk rule (condition now falsified by the dev
approval, priority 9) both block every non-read-only file.  The claim
(and the spec and the README workflow) say the re-check yields
`allowed = true`. -/
theorem highrisk_recheck_blocked_after_dev_approval :
    checkBeforeModification getDefaultRules "src/core.ts" (some c1meta)
        (getFileApprovalStatus c1s0 "src/core.ts") =
      ⟨false,
       ["High-risk file requires dev approval before modification",
        "File is marked as read-only and cannot be modified"],
       ["Consider if modifying deprecated file is necessary",
        "File requires code review before modification",
        "Stable code should be reviewed before modification"]⟩
    ∧ checkBeforeModification getDefaultRules "src/core.ts" (some c1meta)
        (getFileApprovalStatus c1s1 "src/core.ts") =
      ⟨false,
       ["File is marked as read-only and cannot be modified",
        "High-risk file requires developer approval"],
       ["Consider if modifying deprecated file is necessary",
        "File requires code review before modification",
        "Stable code should be reviewed before modification"]⟩ := by
  constructor <;> decide

/-- Claim C2 counterexample: with no metadata (here: the file is absent,
so the read fails and degrades to `null` metadata) the decision is
`allowed = true` with empty reasons and one warning, but the warning text
is `"No @ai-metadata found in file"`, not the `"No metadata found"` the
claim states. -/
theorem no_metadata_warning_text_cex :
    (gateCheckBeforeModification c2state "missing.ts").1 ≠
      ⟨true, [], ["No metadata found"]⟩ := by
  decide

/-- Claim C2 (amended): whenever metadata is absent — the file is
missing/unreadable or its text contains no metadata block — the decision
is exactly `allowed = true`, no reasons, and the single warning
`"No @ai-metadata found in file"`; no I/O error blocks. -/
theorem no_metadata_fail_open (s : SysState) (path : String)
    (h : (parseFileMetadata s path).isNone = true) :
    (gateCheckBeforeModification s path).1 =
      ⟨true, [], ["No @ai-metadata found in file"]⟩ := by
  have hm : parseFileMetadata s path = none := Option.isNone_iff_eq_none.mp h
  simp [gateCheckBeforeModification, checkBeforeModification, hm]

/-- Witness for C2: a file whose text has no metadata block, and a
missing file, both yield the fail-open decision. -/
theorem no_metadata_fail_open_witness :
    (gateCheckBeforeModification
        ⟨some (some ⟨[]⟩), [("plain.ts", "const x = 1;")], getDefaultRules⟩ "plain.ts").1 =
      ⟨true, [], ["No @ai-metadata found in file"]⟩
    ∧ (gateCheckBeforeModification ⟨some (some ⟨[]⟩), [], getDefaultRules⟩ "missing.ts").1 =
      ⟨true, [], ["No @ai-metadata found in file"]⟩ :=
  ⟨no_metadata_fail_open _ "plain.ts" (by decide),
   no_metadata_fail_open _ "missing.ts" (by decide)⟩

/-- Claim C3: complete characterization of the custom-rule phase — the
decision is the hard-coded phase result extended by exactly the enabled
rules whose condition evaluated falsy, those with priority strictly
greater than 8 appending their action to `reasons` (forcing `allowed =
false`), and those with priority at most 8 appending their action to
`warnings` only. -/
theorem rule_priority_classification (rules : List AIRule) (filePath : String)
    (m : AIMetadata) (a : Option ApprovalStatus) :
    checkBeforeModification rules filePath (some m) a =
      ⟨(checkHard m a).allowed &&
          ((rules.filter (·.enabled)).filter (ruleBlocks m a)).isEmpty,
       (checkHard m a).reasons ++
          ((rules.filter (·.enabled)).filter (ruleBlocks m a)).map (·.action),
       (checkHard m a).warnings ++
          ((rules.filter (·.enabled)).filter (ruleWarns m a)).map (·.action)⟩ := by
  unfold checkBeforeModification
  exact foldl_ruleStep m a _ _

/-- Claim C4: in every decision produced by `checkBeforeModification`,
`allowed` is false exactly when `reasons` is non-empty, over both the
hard-coded and the custom-rule phase; warnings never influence
`allowed`. -/
theorem allowed_iff_reasons_empty (rules : List AIRule) (filePath : String)
    (metadata : Option AIMetadata) (approvals : Option ApprovalStatus) :
    (checkBeforeModification rules filePath metadata approvals).allowed =
      (checkBeforeModification rules filePath metadata approvals).reasons.isEmpty := by
  cases metadata with
  | none => rfl
  | some m =>
    unfold checkBeforeModification
    simp only []
    rw [foldl_ruleStep]
    simp only [listIsEmpty_append, listIsEmpty_map]
    rw [checkHard_allowed]

/-- True when any of the three approved flags of a (possibly absent)
ledger entry is set; an absent entry counts as all-false. -/
def anyApprovedFlag (o : Option ApprovalStatus) : Bool :=
  match o with
  | none => false
  | some a =>
    (a.devApproved == some true) || (a.codeReviewApproved == some true) ||
      (a.qaApproved == some true)

/-- Claim C5: after `invalidateApprovals(path, reason)` all three
approved flags of the path read back false (an absent entry counting as
all-false); invalidation is idempotent; and invalidating a path with no
ledger entry is a successful no-op. -/
theorem invalidate_approvals_spec (s : SysState) (path reason reason2 : String) :
    anyApprovedFlag (getFileApprovalStatus (invalidateFileApprovals s path reason) path) = false
    ∧ invalidateFileApprovals (invalidateFileApprovals s path reason) path reason2 =
        invalidateFileApprovals s path reason
    ∧ (getFileApprovalStatus s path = none → invalidateFileApprovals s path reason = s) := by
  cases hl : lookupA (getProjectMemory s).approvalStates path with
  | none =>
    have h1 : invalidateFileApprovals s path reason = s := by
      unfold invalidateFileApprovals
      rw [hl]
    have h2 : invalidateFileApprovals s path reason2 = s := by
      unfold invalidateFileApprovals
      rw [hl]
    refine ⟨?_, ?_, fun _ => h1⟩
    · rw [h1]
      simp [getFileApprovalStatus, hl, anyApprovedFlag]
    · rw [h1, h2]
  | some e =>
    have h1 : invalidateFileApprovals s path reason =
        saveProjectMemory s ⟨setKeyA (getProjectMemory s).approvalStates path invalidatedStatus⟩ := by
      unfold invalidateFileApprovals
      rw [hl]
    refine ⟨?_, ?_, ?_⟩
    · rw [h1]
      simp [getFileApprovalStatus, saveProjectMemory, getProjectMemory,
        lookupA_setKeyA_self, anyApprovedFlag, invalidatedStatus]
    · rw [h1]
      unfold invalidateFileApprovals
      have hm : getProjectMemory (saveProjectMemory s
          ⟨setKeyA (getProjectMemory s).approvalStates path invalidatedStatus⟩) =
          ⟨setKeyA (getProjectMemory s).approvalStates path invalidatedStatus⟩ := rfl
      rw [hm, lookupA_setKeyA_self]
      simp [saveProjectMemory, setKeyA_setKeyA]
    · intro hnone
      rw [getFileApprovalStatus, hl] at hnone
      exact absurd hnone (by simp)

/-- C5 world used by the witness: one approved entry for `a.ts`, no
entry for `b.ts`. -/
def w5state : SysState :=
  ⟨some (some ⟨[("a.ts", { devApproved := some true, qaApproved := some true })]⟩), [], []⟩

/-- Witness for C5 at a concrete approved entry and at an absent one. -/
theorem invalidate_approvals_spec_witness :
    anyApprovedFlag (getFileApprovalStatus (invalidateFileApprovals w5state "a.ts" "edited") "a.ts") = false
    ∧ invalidateFileApprovals (invalidateFileApprovals w5state "a.ts" "edited") "a.ts" "edited twice" =
        invalidateFileApprovals w5state "a.ts" "edited"
    ∧ invalidateFileApprovals w5state "b.ts" "edited" = w5state := by
  obtain ⟨h1, h2, -⟩ := invalidate_approvals_spec w5state "a.ts" "edited" "edited twice"
  obtain ⟨-, -, h3⟩ := invalidate_approvals_spec w5state "b.ts" "edited" "edited twice"
  exact ⟨h1, h2, h3 (by decide)⟩

/-- Approved flag of a slot. -/
def slotApprovedOf (e : ApprovalStatus) : ApprovalSlot → Option Bool
  | ApprovalSlot.dev => e.devApproved
  | ApprovalSlot.codeReview => e.codeReviewApproved
  | ApprovalSlot.qa => e.qaApproved

/-- Approver identity of a slot. -/
def slotByOf (e : ApprovalStatus) : ApprovalSlot → Option String
  | ApprovalSlot.dev => e.devApprovedBy
  | ApprovalSlot.codeReview => e.codeReviewApprovedBy
  | ApprovalSlot.qa => e.qaApprovedBy

/-- Timestamp of a slot. -/
def slotDateOf (e : ApprovalStatus) : ApprovalSlot → Option String
  | ApprovalSlot.dev => e.devApprovedDate
  | ApprovalSlot.codeReview => e.codeReviewDate
  | ApprovalSlot.qa => e.qaApprovedDate

/-- Claim C6: `setApproval(path, slot, approver)` sets that slot's
approved flag, approver and timestamp; the other two slots of the entry
and the ledger entries of every other path are unchanged. -/
theorem set_approval_frame (s : SysState) (path : String) (slot : ApprovalSlot)
    (approvedBy now : String) :
    getFileApprovalStatus (setFileApproval s path slot approvedBy now) path =
      some (applySlot ((getFileApprovalStatus s path).getD emptyApproval) slot approvedBy now)
    ∧ slotApprovedOf
        (applySlot ((getFileApprovalStatus s path).getD emptyApproval) slot approvedBy now)
        slot = some true
    ∧ slotByOf
        (applySlot ((getFileApprovalStatus s path).getD emptyApproval) slot approvedBy now)
        slot = some approvedBy
    ∧ slotDateOf
        (applySlot ((getFileApprovalStatus s path).getD emptyApproval) slot approvedBy now)
        slot = some now
    ∧ (∀ other : ApprovalSlot, other ≠ slot →
        slotApprovedOf
            (applySlot ((getFileApprovalStatus s path).getD emptyApproval) slot approvedBy now)
            other =
          slotApprovedOf ((getFileApprovalStatus s path).getD emptyApproval) other
        ∧ slotByOf
            (applySlot ((getFileApprovalStatus s path).getD emptyApproval) slot approvedBy now)
            other =
          slotByOf ((getFileApprovalStatus s path).getD emptyApproval) other
        ∧ slotDateOf
            (applySlot ((getFileApprovalStatus s path).getD emptyApproval) slot approvedBy now)
            other =
          slotDateOf ((getFileApprovalStatus s path).getD emptyApproval) other)
    ∧ (∀ p : String, p ≠ path →
        getFileApprovalStatus (setFileApproval s path slot approvedBy now) p =
          getFileApprovalStatus s p) := by
  refine ⟨?_, ?_, ?_, ?_, ?_, ?_⟩
  · unfold setFileApproval getFileApprovalStatus
    exact lookupA_setKeyA_self _ _ _
  · cases slot <;> rfl
  · cases slot <;> rfl
  · cases slot <;> rfl
  · intro other hne
    cases slot <;> cases other <;>
      first
        | exact absurd rfl hne
        | exact ⟨rfl, rfl, rfl⟩
  · intro p hp
    unfold setFileApproval getFileApprovalStatus
    exact lookupA_setKeyA_other _ _ _ _ hp

/-- C6 world used by the witness: `a.ts` has a qa approval on record,
`b.ts` has a dev approval. -/
def w6state : SysState :=
  ⟨some (some ⟨[("a.ts", { qaApproved := some true, qaApprovedBy := some "qa@example.com",
                           qaApprovedDate := some "2024-11-01T00:00:00.000Z" }),
               ("b.ts", { devApproved := some true })]⟩), [], []⟩

/-- Witness for C6: a dev approval on `a.ts` records the dev slot,
preserves the existing qa slot, and leaves `b.ts` untouched. -/
theorem set_approval_frame_witness :
    getFileApprovalStatus (setFileApproval w6state "a.ts" ApprovalSlot.dev "alice" c1now) "a.ts" =
      some (applySlot ((getFileApprovalStatus w6state "a.ts").getD emptyApproval)
        ApprovalSlot.dev "alice" c1now)
    ∧ slotApprovedOf
        (applySlot ((getFileApprovalStatus w6state "a.ts").getD emptyApproval)
          ApprovalSlot.dev "alice" c1now) ApprovalSlot.dev = some true
    ∧ slotApprovedOf
        (applySlot ((getFileApprovalStatus w6state "a.ts").getD emptyApproval)
          ApprovalSlot.dev "alice" c1now) ApprovalSlot.qa =
      slotApprovedOf ((getFileApprovalStatus w6state "a.ts").getD emptyApproval) ApprovalSlot.qa
    ∧ getFileApprovalStatus (setFileApproval w6state "a.ts" ApprovalSlot.dev "alice" c1now) "b.ts" =
      getFileApprovalStatus w6state "b.ts" := by
  obtain ⟨h1, h2, -, -, hother, hpath⟩ :=
    set_approval_frame w6state "a.ts" ApprovalSlot.dev "alice" c1now
  exact ⟨h1, h2, (hother ApprovalSlot.qa (by decide)).1, hpath "b.ts" (by decide)⟩

/-- World used for the C9 theorems: the ledger file exists but holds
invalid JSON (`fs.readJson` throws on it). -/
def c9state : SysState := ⟨some none, [], getDefaultRules⟩

/-- Claim C9 counterexample: with the on-disk ledger replaced by invalid
JSON, `getApprovalStatus` returns absent without throwing — but the call
leaves the world, in particular the set of files, completely unchanged:
no backup copy of the corrupted ledger is created by this call (the
timestamped backups exist only in `initializeProject` of `index.ts`,
which runs at server startup, not in the store's read path cited by the
claim). -/
theorem corrupt_ledger_no_backup_cex :
    memGetFileApprovalStatus c9state "src/a.ts" = (none, c9state)
    ∧ c9state.files = []
    ∧ (memGetFileApprovalStatus c9state "src/a.ts").2.files = [] :=
  ⟨rfl, rfl, rfl⟩

/-- Claim C9 (amended): when the ledger document cannot be parsed,
`getApprovalStatus` does not throw, returns absent for every path, and
the store proceeds as though the ledger were freshly empty; no backup of
the unreadable file is made by this call. -/
theorem corrupt_ledger_fail_open (s : SysState) (path : String)
    (h : s.ledger = some none) :
    memGetFileApprovalStatus s path = (none, s) := by
  unfold memGetFileApprovalStatus getFileApprovalStatus getProjectMemory
  rw [h]
  rfl

/-- Witness for C9 at the concrete corrupted world. -/
theorem corrupt_ledger_fail_open_witness :
    memGetFileApprovalStatus c9state "src/a.ts" = (none, c9state) :=
  corrupt_ledger_fail_open c9state "src/a.ts" (by decide)

/-- Claim C10: the three query handlers — check-before-modification,
actions-after-modification and approval-status lookup — leave the whole
world (ledger document, files, in-memory rule list) unchanged; in
particular querying an unknown path never creates a ledger entry. -/
theorem query_ops_read_only (s : SysState) (path : String) :
    (gateCheckBeforeModification s path).2 = s
    ∧ (gateGetActionsAfterModification s path).2 = s
    ∧ (memGetFileApprovalStatus s path).2 = s :=
  ⟨rfl, rfl, rfl⟩

/-- Claim C8: when a metadata block is present and its
`@method-permissions:` capture fails structured parsing, extraction still
returns a record — with `methodPermissions` absent — whose every other
field is produced by its own independent parse (`extractFields`),
the JSON warning is surfaced to the logging sink, and no error escapes
(the embedding is a total function; the `try`/`catch` of `parseJsonField`
is the only consumer of the parse failure). -/
theorem malformed_json_field_isolated (content : String) (pre b post cap : List Char)
    (h1 : findBlockSplit content.data = some (pre, b, post))
    (h2 : jsonCapture "@method-permissions:" b = some cap)
    (h3 : (jsonDecode (swapQuotes cap)).isNone = true) :
    extractMetadataFromContent content = (some (extractFields b), [jsonWarnMsg])
    ∧ (extractFields b).methodPermissions = none := by
  have h3' : jsonDecode (swapQuotes cap) = none := Option.isNone_iff_eq_none.mp h3
  refine ⟨?_, rfl⟩
  unfold extractMetadataFromContent
  rw [h1]
  simp only []
  rw [h2]
  simp only []
  rw [h3']

/-- The malformed capture used by the C8 witness (built from characters
to keep brace syntax out of string literals). -/
def mpBadSpan : String := String.mk ('{' :: ("oops".data ++ ['}']))

/-- The C8 witness block: a malformed `@method-permissions:` value next
to well-formed scalar fields. -/
def c8block : String :=
  "/**\n * @ai-metadata\n * @class: ExampleService\n * @stability: experimental\n * @method-permissions: "
    ++ mpBadSpan ++ "\n */"

/-- The C8 witness file content. -/
def c8content : String := c8block ++ "\nexport const x = 1;"

/-- Witness for C8: the malformed capture leaves `methodPermissions`
absent and warns, while `@class:` and `@stability:` in the same block
parse normally. -/
theorem malformed_json_field_isolated_witness :
    extractMetadataFromContent c8content = (some (extractFields c8block.data), [jsonWarnMsg])
    ∧ (extractFields c8block.data).methodPermissions = none
    ∧ (extractFields c8block.data).className = some "ExampleService"
    ∧ (extractFields c8block.data).stability = some "experimental" := by
  obtain ⟨h1, h2⟩ := malformed_json_field_isolated c8content [] c8block.data
    "\nexport const x = 1;".data ('{' :: ("oops".data ++ ['}']))
    (by decide) (by decide) (by decide)
  exact ⟨h1, h2, by decide, by decide⟩

/-- Text of the C7 counterexample: a file that already carries a
metadata block with `@stability: deprecated`. -/
def c7text : String := "/**\n * @ai-metadata\n * @stability: deprecated\n */\nconst y = 2;"

/-- Timestamp passed for the update stamp in the C7 scenario. -/
def c7now : String := "2024-12-20T10:00:00.000Z"

/-- Claim C7 counterexample: updating `{stability: "stable"}` on a file
whose block says `@stability: deprecated` does not change the stability
— `stability` is not in the `fieldMap` of `updateMetadataField`, so the
update loop drops the key — and re-extraction still yields
`"deprecated"`, falsifying the claimed round-trip. -/
theorem metadata_roundtrip_stability_cex :
    ((extractMetadataFromContent
        (updateMetadataInContent c7now c7text [("stability", "stable")])).1.map
      (·.stability)) = some (some "deprecated") := by
  decide

/-- The single update record of the C7 scenario. -/
def stabUpdates : List (String × String) := [("stability", "stable")]

/-- The record extracted after the C7 amended round-trip: only the
requested `stability` and the always-stamped `lastUpdate` are present. -/
def c7record : AIMetadata := { lastUpdate := some c7now, stability := some "stable" }

/-- Claim C7 (amended): for every file text with no existing metadata
block, `applyUpdates(text, {stability: "stable"})` synthesizes a block
whose extraction yields `stability = "stable"`; every field other than
`stability` and the always-stamped `lastUpdate` retains the absent value
the original extraction would have produced.  (On texts with an existing
block the stability key is silently dropped, see the counterexample.) -/
theorem metadata_roundtrip_no_block (text : String)
    (h : ((extractMetadataFromContent text).1).isNone = true) :
    extractMetadataFromContent (updateMetadataInContent c7now text stabUpdates) =
      (some c7record, []) := by
  have hext := Option.isNone_iff_eq_none.mp h
  have hfind : findBlockSplit text.data = none := by
    rcases hf : findBlockSplit text.data with _ | ⟨p, b⟩
    · rfl
    · exfalso
      obtain ⟨b1, b2⟩ := b
      unfold extractMetadataFromContent at hext
      rw [hf] at hext
      simp only [] at hext
      rcases hc : jsonCapture "@method-permissions:" b1 with _ | cap <;> rw [hc] at hext
      · simp at hext
      · simp only [] at hext
        rcases hd : jsonDecode (swapQuotes cap) with _ | v <;> rw [hd] at hext <;>
          simp at hext
  have hupd : updateMetadataInContent c7now text stabUpdates =
      generateMetadataBlock c7now stabUpdates ++ "\n" ++ text := by
    unfold updateMetadataInContent
    rw [hfind]
  rw [hupd]
  have hgen : findBlockSplit (generateMetadataBlock c7now stabUpdates).data =
      some ([], (generateMetadataBlock c7now stabUpdates).data, []) := by decide
  have hdata : (generateMetadataBlock c7now stabUpdates ++ "\n" ++ text).data =
      (generateMetadataBlock c7now stabUpdates).data ++ ('\n' :: text.data) := by
    have hnl : ("\n" : String).data = ['\n'] := rfl
    simp [String.data_append, hnl]
  have hfind2 : findBlockSplit ((generateMetadataBlock c7now stabUpdates ++ "\n" ++ text)).data =
      some ([], (generateMetadataBlock c7now stabUpdates).data, '\n' :: text.data) := by
    rw [hdata]
    have happ := findBlockSplit_append ('\n' :: text.data) hgen
    simpa using happ
  unfold extractMetadataFromContent
  rw [hfind2]
  rfl

/-- Witness for C7 on a concrete text without a metadata block. -/
theorem metadata_roundtrip_no_block_witness :
    extractMetadataFromContent (updateMetadataInContent c7now "const z = 3;" stabUpdates) =
      (some c7record, []) :=
  metadata_roundtrip_no_block "const z = 3;" (by decide)

end MCPMemory
